import Mathlib

/-!
Verification of the local persistence layer of the Diario journaling app
(`src/services/db.ts`), against its specification.

The embedding models:
* JSON values (`JsonValue`) with an executable serializer (`JSON.stringify`)
  and parser (`JSON.parse`), mirroring the engine-native `JSON` object as the
  code uses it.  Numeric literals are modelled as integers: the diary's
  numeric fields (`date`, `updatedAt`) are integer millisecond timestamps,
  and fractional/exponent literals and `\u` escapes lie outside the model.
* The IndexedDB object store `entries` (`EntriesState`): an insertion-ordered
  keyed record list with insert-or-replace (`put`) keyed by the key path
  `id`.  Key-path evaluation (`jsonKeyOf`) yields a string or number key, or
  fails (the engine's synchronous `DataError`) when the `id` property is
  absent or not a valid key.  IndexedDB additionally admits array and binary
  keys, which the diary never produces.  `getAll` enumeration order is
  engine-defined; the theorems below do not depend on it.
* The `settings` store and the `diaryService` operations from the source:
  `getAllEntries`, `saveEntry`, `getSettings`, `exportData`, `importData`.
-/

/-- A JSON value, as produced by `JSON.parse`: null, booleans, (integer)
numbers, strings, arrays, and objects as ordered field lists. -/
inductive JsonValue where
  | null
  | bool (b : Bool)
  | num (n : Int)
  | str (s : String)
  | arr (xs : List JsonValue)
  | obj (fs : List (String × JsonValue))

/-- The opening-brace character, `{`. -/
def lbrace : Char := Char.ofNat 123

/-- The closing-brace character, `}`. -/
def rbrace : Char := Char.ofNat 125

def isWs (c : Char) : Bool := c = ' ' || c = Char.ofNat 10 || c = Char.ofNat 9 || c = Char.ofNat 13

def isDigit (c : Char) : Bool := 48 ≤ c.toNat && c.toNat ≤ 57

/-- Numeric value of a digit character. -/
def dval (c : Char) : Nat := c.toNat - 48

/-- The digit character for `n < 10`. -/
def digitChar (n : Nat) : Char := Char.ofNat (48 + n)

/-- Decimal digit characters of `n`, most significant first (fuel-indexed so
that the recursion is structural and kernel-reducible). -/
def natCharsF : Nat → Nat → List Char
  | 0, _ => []
  | fuel + 1, n => if n < 10 then [digitChar n] else natCharsF fuel (n / 10) ++ [digitChar (n % 10)]

/-- Decimal digit characters of a natural number, most significant first. -/
def natChars (n : Nat) : List Char := natCharsF (n + 1) n

/-- Decimal rendering of an integer: optional minus sign, then digits, as
`JSON.stringify` prints the diary's integer timestamps. -/
def intChars : Int → List Char
  | .ofNat n => natChars n
  | .negSucc m => '-' :: natChars (m + 1)

/-- JSON string escaping of one character, as `JSON.stringify` emits it for
the characters the model covers (quote, backslash, newline, carriage return,
tab); other characters are emitted raw. -/
def escapeCh (c : Char) : List Char :=
  if c = '"' then ['\\', '"']
  else if c = '\\' then ['\\', '\\']
  else if c = Char.ofNat 10 then ['\\', 'n']
  else if c = Char.ofNat 13 then ['\\', 'r']
  else if c = Char.ofNat 9 then ['\\', 't']
  else [c]

def escapeList : List Char → List Char
  | [] => []
  | c :: cs => escapeCh c ++ escapeList cs

/-- A rendered JSON string literal: quote, escaped body, quote. -/
def renderStr (s : String) : List Char := '"' :: (escapeList s.data ++ ['"'])

mutual
/-- Characters of the JSON serialization of a value (`JSON.stringify`, which
emits no whitespace). -/
def renderV : JsonValue → List Char
  | .null => ("null").data
  | .bool true => ("true").data
  | .bool false => ("false").data
  | .num n => intChars n
  | .str s => renderStr s
  | .arr [] => ['[', ']']
  | .arr (x :: xs) => '[' :: (renderV x ++ renderTail xs ++ [']'])
  | .obj [] => [lbrace, rbrace]
  | .obj (f :: fs) => lbrace :: (renderField f ++ renderFTail fs ++ [rbrace])
def renderTail : List JsonValue → List Char
  | [] => []
  | x :: xs => ',' :: (renderV x ++ renderTail xs)
def renderField : String × JsonValue → List Char
  | (k, v) => renderStr k ++ ':' :: renderV v
def renderFTail : List (String × JsonValue) → List Char
  | [] => []
  | f :: fs => ',' :: (renderField f ++ renderFTail fs)
end

/-- Model of `JSON.stringify`, on the modelled value grammar. -/
def JSON.stringify (v : JsonValue) : String := String.mk (renderV v)

/-- Skip JSON whitespace. -/
def skipWs : List Char → List Char
  | [] => []
  | ch :: more => if isWs ch then skipWs more else ch :: more

/-- Unescape one escaped character (the escapes the model covers). -/
def unescCh (e : Char) : Option Char :=
  if e = '"' ∨ e = '\\' ∨ e = '/' then some e
  else if e = 'n' then some (Char.ofNat 10)
  else if e = 'r' then some (Char.ofNat 13)
  else if e = 't' then some (Char.ofNat 9)
  else if e = 'b' then some (Char.ofNat 8)
  else if e = 'f' then some (Char.ofNat 12)
  else none

/-- Parse the body of a string literal after the opening quote, accumulating
the unescaped characters in reverse. -/
def parseStrBody (acc : List Char) : List Char → Option (String × List Char)
  | [] => none
  | '"' :: r => some (String.mk acc.reverse, r)
  | '\\' :: e :: r =>
    match unescCh e with
    | some c => parseStrBody (c :: acc) r
    | none => none
  | ['\\'] => none
  | c :: r => parseStrBody (c :: acc) r

/-- Collect a maximal run of digit characters. -/
def takeDigits : List Char → List Char × List Char
  | c :: cs =>
    if isDigit c then
      match takeDigits cs with
      | (ds, r) => (c :: ds, r)
    else ([], c :: cs)
  | [] => ([], [])

/-- The natural number a digit run denotes. -/
def digitsToNat (ds : List Char) : Nat := ds.foldl (fun a c => a * 10 + dval c) 0

/-- Parse a nonempty digit run into a natural number. -/
def parseNumPos (cs : List Char) : Option (Nat × List Char) :=
  match takeDigits cs with
  | ([], _) => none
  | (ds, r) => some (digitsToNat ds, r)

mutual
/-- Parse a JSON value (fuel-indexed; every recursive call decreases fuel, so
the recursion is structural and kernel-reducible). -/
def parseVal : Nat → List Char → Option (JsonValue × List Char)
  | 0, _ => none
  | fuel + 1, cs =>
    match skipWs cs with
    | [] => none
    | c :: r =>
      if c = 'n' then
        (match r with
         | 'u' :: 'l' :: 'l' :: r2 => some (.null, r2)
         | _ => none)
      else if c = 't' then
        (match r with
         | 'r' :: 'u' :: 'e' :: r2 => some (.bool true, r2)
         | _ => none)
      else if c = 'f' then
        (match r with
         | 'a' :: 'l' :: 's' :: 'e' :: r2 => some (.bool false, r2)
         | _ => none)
      else if c = '"' then
        (match parseStrBody [] r with
         | some (s, r2) => some (.str s, r2)
         | none => none)
      else if c = '[' then
        (match skipWs r with
         | [] => none
         | c2 :: r2 =>
           if c2 = ']' then some (.arr [], r2)
           else
             match parseItems fuel (c2 :: r2) with
             | some (xs, r3) => some (.arr xs, r3)
             | none => none)
      else if c = lbrace then
        (match skipWs r with
         | [] => none
         | c2 :: r2 =>
           if c2 = rbrace then some (.obj [], r2)
           else
             match parseFields fuel (c2 :: r2) with
             | some (fs, r3) => some (.obj fs, r3)
             | none => none)
      else if c = '-' then
        (match parseNumPos r with
         | some (n, r2) => some (.num (-(n : Int)), r2)
         | none => none)
      else if isDigit c then
        (match parseNumPos (c :: r) with
         | some (n, r2) => some (.num (n : Int), r2)
         | none => none)
      else none
def parseItems : Nat → List Char → Option (List JsonValue × List Char)
  | 0, _ => none
  | fuel + 1, cs =>
    match parseVal fuel cs with
    | none => none
    | some (v, r) =>
      match skipWs r with
      | [] => none
      | c :: r2 =>
        if c = ',' then
          match parseItems fuel r2 with
          | some (vs, r3) => some (v :: vs, r3)
          | none => none
        else if c = ']' then some ([v], r2)
        else none
def parseFields : Nat → List Char → Option (List (String × JsonValue) × List Char)
  | 0, _ => none
  | fuel + 1, cs =>
    match skipWs cs with
    | [] => none
    | c0 :: r =>
      if c0 = '"' then
        (match parseStrBody [] r with
         | none => none
         | some (k, r1) =>
           match skipWs r1 with
           | [] => none
           | c1 :: r2 =>
             if c1 = ':' then
               (match parseVal fuel r2 with
                | none => none
                | some (v, r3) =>
                  match skipWs r3 with
                  | [] => none
                  | c :: r4 =>
                    if c = ',' then
                      match parseFields fuel r4 with
                      | some (fs, r5) => some ((k, v) :: fs, r5)
                      | none => none
                    else if c = rbrace then some ([(k, v)], r4)
                    else none)
             else none)
      else none
end

/-- Model of `JSON.parse`, on the modelled grammar: a complete document with nothing
but whitespace after the value. -/
def JSON.parse (s : String) : Option JsonValue :=
  match parseVal (s.data.length + 1) s.data with
  | some (v, r) => if skipWs r = [] then some v else none
  | none => none

example : JSON.parse ("[null,true]") = some (.arr [.null, .bool true]) := rfl
example : JSON.parse ("not json") = none := rfl
example : JSON.parse ("\x7b\x7d") = some (.obj []) := rfl
example : JSON.parse ("\x7b\"id\":\"a\",\"date\":17\x7d") =
    some (.obj [(("id"), .str ("a")), (("date"), .num 17)]) := rfl
example : JSON.parse ("[\x7b\"id\":\"a\"\x7d,-5]") =
    some (.arr [.obj [(("id"), .str ("a"))], .num (-5)]) := rfl
example : JSON.stringify (.arr [.obj [(("id"), .str ("a")), (("date"), .num 17)]]) =
    ("[\x7b\"id\":\"a\",\"date\":17\x7d]") := rfl
example : JSON.parse (JSON.stringify (.obj [(("x"), .str ("he\"ll\\o"))])) =
    some (.obj [(("x"), .str ("he\"ll\\o"))]) := rfl

/-! ### Data model (`src/types.ts`) -/

inductive Theme where
  | light
  | dark
deriving DecidableEq

inductive ViewMode where
  | list
  | grid
  | calendar
deriving DecidableEq

/-- One diary record (`Entry` in `src/types.ts`).  `audio`, `drawing` and
`location` are optional (`undefined` when absent). -/
structure Entry where
  id : String
  title : String
  content : String
  date : Int
  updatedAt : Int
  mood : String
  tags : List String
  category : String
  isFavorite : Bool
  isPrivate : Bool
  images : List String
  audio : Option String
  drawing : Option String
  location : Option String
deriving DecidableEq

/-- The `AppSettings` record of `src/types.ts`. -/
structure AppSettings where
  theme : Theme
  securityEnabled : Bool
  pin : Option String
  biometricsEnabled : Bool
  dailyReminder : Bool
  reminderTime : String
  viewMode : ViewMode
deriving DecidableEq

/-- An optional Entry field as a JSON object field list: present fields
serialize, absent (`undefined`) fields are omitted, as both the structured
clone into IndexedDB and `JSON.stringify` treat them. -/
def optField (name : String) : Option String → List (String × JsonValue)
  | some s => [(name, .str s)]
  | none => []

/-- The JSON object fields of an entry, in declaration order, optional
fields omitted when absent. -/
def entryFields (e : Entry) : List (String × JsonValue) :=
  [(("id"), .str e.id), (("title"), .str e.title), (("content"), .str e.content),
   (("date"), .num e.date), (("updatedAt"), .num e.updatedAt), (("mood"), .str e.mood),
   (("tags"), .arr (e.tags.map .str)), (("category"), .str e.category),
   (("isFavorite"), .bool e.isFavorite), (("isPrivate"), .bool e.isPrivate),
   (("images"), .arr (e.images.map .str))]
  ++ optField ("audio") e.audio ++ optField ("drawing") e.drawing
  ++ optField ("location") e.location

/-- An entry as the JSON value the store holds and the snapshot serializes. -/
def entryToJson (e : Entry) : JsonValue := .obj (entryFields e)

/-! ### The IndexedDB engine model -/

/-- An IndexedDB key, as the diary produces them (strings; numbers also being
valid keys).  Arrays, dates and binary keys are also engine-valid but the
diary never produces them, and a value of any other type fails key-path
evaluation with `DataError`. -/
inductive IDBKey where
  | str (s : String)
  | num (n : Int)
deriving DecidableEq

/-- JavaScript property access on an object's field list: the last
occurrence of the key wins, as in the object `JSON.parse` builds. -/
def objGet (key : String) : List (String × JsonValue) → Option JsonValue
  | [] => none
  | (k, v) :: fs =>
    match objGet key fs with
    | some w => some w
    | none => if k = key then some v else none

/-- Evaluation of the `entries` store's key path `id` on a value:
the `id` property when it is a valid key, or `DataError` (`none`). -/
def jsonKeyOf : JsonValue → Option IDBKey
  | .obj fs =>
    (match objGet ("id") fs with
     | some (.str s) => some (.str s)
     | some (.num n) => some (.num n)
     | _ => none)
  | _ => none

/-- The `entries` object store: keyed records in insertion order. -/
structure EntriesState where
  records : List (IDBKey × JsonValue)

/-- Model of `IDBObjectStore.put`: insert-or-replace by key. -/
def putRecord (k : IDBKey) (v : JsonValue) : List (IDBKey × JsonValue) → List (IDBKey × JsonValue)
  | [] => [(k, v)]
  | (k2, v2) :: recs => if k2 = k then (k, v) :: recs else (k2, v2) :: putRecord k v recs

/-- Model of `IDBObjectStore.get` by key. -/
def lookupRec (k : IDBKey) : List (IDBKey × JsonValue) → Option JsonValue
  | [] => none
  | (k2, v) :: recs => if k2 = k then some v else lookupRec k recs

/-! ### Entry enumeration and sorting (`diaryService.getAllEntries`) -/

/-- The `date` property of a stored value, when it is a number. -/
def entryDate? (v : JsonValue) : Option Int :=
  match v with
  | .obj fs =>
    (match objGet ("date") fs with
     | some (.num n) => some n
     | _ => none)
  | _ => none

/-- The `date` a stored value sorts by.  On a value without a numeric `date`
the source's comparator `b.date - a.date` is `NaN` and the engine's sort
order is unspecified; the model defaults to `0` and the theorems below
restrict themselves to numerically dated (entry-shaped) collections. -/
def entryDate (v : JsonValue) : Int := (entryDate? v).getD 0

/-- The comparator of `getAllEntries`: `b.date - a.date ≤ 0`, i.e. sort by
`date` descending. -/
def dateDesc (a b : JsonValue) : Prop := entryDate b ≤ entryDate a

instance : DecidableRel dateDesc := fun a b => Int.decLe (entryDate b) (entryDate a)

instance : IsTotal JsonValue dateDesc := ⟨fun a b => Int.le_total (entryDate b) (entryDate a)⟩

instance : IsTrans JsonValue dateDesc := ⟨fun _ _ _ h1 h2 => le_trans h2 h1⟩

/-- Model of `diaryService.getAllEntries`: read every record and sort by `date`
descending. -/
def getAllEntries (st : EntriesState) : List JsonValue :=
  List.insertionSort dateDesc (st.records.map Prod.snd)

/-- Model of `diaryService.saveEntry`: `put` the entry; its key-path value is its
`id` string. -/
def saveEntry (e : Entry) (st : EntriesState) : EntriesState :=
  ⟨putRecord (.str e.id) (entryToJson e) st.records⟩

/-- A sequence of `saveEntry` calls, in order. -/
def saveAll (es : List Entry) (st : EntriesState) : EntriesState :=
  es.foldl (fun s e => saveEntry e s) st

/-! ### Settings (`diaryService.getSettings`) -/

/-- The default settings literal in `getSettings`. -/
def defaultSettings : AppSettings :=
  ⟨.light, false, none, false, false, ("20:00"), .list⟩

/-- Outcome of the engine-level `get('appSettings')` request: success with
the stored record (or absence), or `request.onerror`. -/
inductive SettingsReadOutcome where
  | success (found : Option AppSettings)
  | failure
deriving DecidableEq

/-- What `getSettings` resolves with: a well-typed settings record, or the
field-less object `{} as AppSettings` from the error handler. -/
inductive SettingsValue where
  | settings (s : AppSettings)
  | emptyObject
deriving DecidableEq

/-- A settled promise: resolved with a value, or rejected. -/
inductive PromiseOutcome (α : Type) where
  | resolved (a : α)
  | rejected

/-- Model of `diaryService.getSettings`, after a successful `openDB`: on request
success resolves `request.result?.value || defaults`; on request error
resolves `{} as AppSettings`.  Both handlers call `resolve`, never
`reject`. -/
def getSettings : SettingsReadOutcome → PromiseOutcome SettingsValue
  | .success (some s) => .resolved (.settings s)
  | .success none => .resolved (.settings defaultSettings)
  | .failure => .resolved .emptyObject

/-- The `settings` object store holds at most the one `appSettings` record. -/
structure SettingsState where
  stored : Option AppSettings
deriving DecidableEq

/-- A healthy-engine `getSettings` call as a state transformer: the
transaction is `readonly` and issues only a `get`, so the store state is
returned unchanged alongside the resolved value. -/
def getSettingsCall (st : SettingsState) : SettingsState × PromiseOutcome SettingsValue :=
  (st, getSettings (.success st.stored))

/-! ### Snapshot codec (`diaryService.exportData` / `importData`) -/

/-- The error importData surfaces: the thrown
`Error('Formato de arquivo invalido')` for any exception inside the `try`,
or the transaction's own error surfaced by `reject(transaction.error)`. -/
inductive ImportError where
  | invalidFormat
  | engineAbort
deriving DecidableEq

/-- Model of `for (const entry of entries)`: arrays iterate their elements, strings
iterate their characters, every other `JSON.parse` result throws
`TypeError` (caught by the surrounding `try`). -/
def jsIterate : JsonValue → Option (List JsonValue)
  | .arr xs => some xs
  | .str s => some (s.data.map fun c => JsonValue.str (String.mk [c]))
  | _ => none

/-- The parse-then-iterate front half of `importData`. -/
def decodeSeq (s : String) : Option (List JsonValue) :=
  match JSON.parse s with
  | some v => jsIterate v
  | none => none

/-- The `store.put(entry)` loop: each value's key path is evaluated
synchronously; on failure (`DataError`) the loop throws, but the puts
already queued stay queued (the error flag is returned alongside the
records as queued so far). -/
def runPuts : List JsonValue → List (IDBKey × JsonValue) →
    List (IDBKey × JsonValue) × Bool
  | [], recs => (recs, false)
  | v :: vs, recs =>
    match jsonKeyOf v with
    | none => (recs, true)
    | some k => runPuts vs (putRecord k v recs)

/-- Model of `diaryService.importData`, with the readwrite transaction's commit
outcome (`txCommits`) made explicit: a transaction that aborts at the
engine level rolls back every queued put.  When the put loop throws
`DataError`, `importData` reports `InvalidFormat`, while the queued puts
still commit with the auto-committing transaction (or roll back if it
aborts). -/
def importDataTx (txCommits : Bool) (jsonString : String) (st : EntriesState) :
    EntriesState × Option ImportError :=
  match decodeSeq jsonString with
  | none => (st, some .invalidFormat)
  | some items =>
    match runPuts items st.records with
    | (recs, true) => (if txCommits then ⟨recs⟩ else st, some .invalidFormat)
    | (recs, false) =>
      if txCommits then (⟨recs⟩, none) else (st, some .engineAbort)

/-- Model of `diaryService.importData` with a committing transaction. -/
def importData (jsonString : String) (st : EntriesState) :
    EntriesState × Option ImportError :=
  importDataTx true jsonString st

/-- Model of `diaryService.exportData`: serialize `getAllEntries()`. -/
def exportData (st : EntriesState) : String :=
  JSON.stringify (.arr (getAllEntries st))

example :
    importData ("[\x7b\"id\":\"a\",\"date\":2\x7d]") ⟨[]⟩ =
      (⟨[(.str ("a"), .obj [(("id"), .str ("a")), (("date"), .num 2)])]⟩, none) := rfl
example : importData ("not json") ⟨[]⟩ = (⟨[]⟩, some .invalidFormat) := rfl
example : importData ("\x7b\x7d") ⟨[]⟩ = (⟨[]⟩, some .invalidFormat) := rfl

/-! ### Derived definitions used by the theorems -/

/-- The records under a given key. -/
def recordsFor (k : IDBKey) (recs : List (IDBKey × JsonValue)) :
    List (IDBKey × JsonValue) :=
  recs.filter fun r => r.1 = k

/-- The last value a decoded sequence writes under a key (later puts
overwrite earlier ones). -/
def lastWrite (k : IDBKey) : List JsonValue → Option JsonValue
  | [] => none
  | v :: vs =>
    match lastWrite k vs with
    | some w => some w
    | none => if jsonKeyOf v = some k then some v else none

/-- A remainder that cannot extend a rendered number: empty or not starting
with a digit.  Every JSON delimiter qualifies. -/
def restOk : List Char → Bool
  | [] => true
  | c :: _ => !(isDigit c)

/-- A record paired with its key-path value (defined when the key path
evaluates). -/
def keyedOf (v : JsonValue) : Option (IDBKey × JsonValue) :=
  (jsonKeyOf v).map fun k => (k, v)

/-! ## Claims about the settings store -/

/-- C1: the claim says an engine-level read error during a settings load
still yields the exact fixed default `AppSettings` record.  The code's
`request.onerror` handler instead resolves with `{} as AppSettings` — an
object carrying none of the `AppSettings` fields, which is not the default
record (nor any well-typed settings record). -/
theorem getSettings_error_not_default :
    getSettings .failure = .resolved .emptyObject ∧
    ∀ s : AppSettings, SettingsValue.emptyObject ≠ .settings s := by
  refine ⟨rfl, fun s h => ?_⟩
  exact SettingsValue.noConfusion h

/-- C8: on a store with no settings record, `getSettings` resolves with
exactly the fixed default record and, the transaction being readonly with
only a `get` issued, leaves the settings collection without a record. -/
theorem getSettings_fresh_default :
    getSettingsCall ⟨none⟩ =
      (⟨none⟩, .resolved (.settings
        ⟨.light, false, none, false, false, ("20:00"), .list⟩)) := rfl

/-- C10: for every outcome of the settings read — success with a record,
success with absence, or request error — `getSettings` resolves rather than
rejecting. -/
theorem getSettings_never_rejects :
    ∀ o : SettingsReadOutcome, ∃ v, getSettings o = .resolved v := by
  intro o
  cases o with
  | success found =>
    cases found with
    | some s => exact ⟨.settings s, rfl⟩
    | none => exact ⟨.settings defaultSettings, rfl⟩
  | failure => exact ⟨.emptyObject, rfl⟩

/-! ## Store lemmas -/

theorem putRecord_keys (k : IDBKey) (v : JsonValue) :
    ∀ recs : List (IDBKey × JsonValue),
      (putRecord k v recs).map Prod.fst =
        if k ∈ recs.map Prod.fst then recs.map Prod.fst else recs.map Prod.fst ++ [k] := by
  intro recs
  induction recs with
  | nil => simp [putRecord]
  | cons hd tl ih =>
    obtain ⟨k2, v2⟩ := hd
    by_cases hk : k2 = k
    · subst hk
      simp [putRecord]
    · have hk2 : ¬k = k2 := fun h => hk h.symm
      simp only [putRecord, if_neg hk, List.map_cons, ih]
      by_cases hmem : k ∈ tl.map Prod.fst
      · simp [hmem, hk2]
      · simp [hmem, hk2]

theorem putRecord_nodup (k : IDBKey) (v : JsonValue)
    (recs : List (IDBKey × JsonValue)) (h : (recs.map Prod.fst).Nodup) :
    ((putRecord k v recs).map Prod.fst).Nodup := by
  rw [putRecord_keys]
  by_cases hmem : k ∈ recs.map Prod.fst
  · simpa [hmem] using h
  · simp only [if_neg hmem]
    exact List.Nodup.append h (List.nodup_singleton k) (by simpa using hmem)

theorem lookupRec_putRecord (k k2 : IDBKey) (v : JsonValue) :
    ∀ recs : List (IDBKey × JsonValue),
      lookupRec k2 (putRecord k v recs) =
        if k2 = k then some v else lookupRec k2 recs := by
  intro recs
  induction recs with
  | nil =>
    by_cases hk : k2 = k
    · simp [putRecord, lookupRec, hk]
    · have hk2 : ¬k = k2 := fun h => hk h.symm
      simp [putRecord, lookupRec, hk, hk2]
  | cons hd tl ih =>
    obtain ⟨k3, v3⟩ := hd
    by_cases h3 : k3 = k
    · subst h3
      by_cases h2 : k2 = k3
      · simp [putRecord, lookupRec, h2]
      · have h2' : ¬k3 = k2 := fun h => h2 h.symm
        simp [putRecord, lookupRec, h2, h2']
    · by_cases h2 : k3 = k2
      · subst h2
        simp [putRecord, lookupRec, h3]
      · simp [putRecord, lookupRec, h3, h2, ih]


theorem recordsFor_eq_nil (k : IDBKey) :
    ∀ recs : List (IDBKey × JsonValue), k ∉ recs.map Prod.fst → recordsFor k recs = [] := by
  intro recs h
  induction recs with
  | nil => rfl
  | cons hd tl ih =>
    obtain ⟨k2, v2⟩ := hd
    simp only [List.map_cons, List.mem_cons] at h
    push_neg at h
    have hne : ¬k2 = k := fun hh => h.1 hh.symm
    simp only [recordsFor, List.filter_cons]
    rw [if_neg (by simpa using hne)]
    exact ih h.2

theorem recordsFor_putRecord (k : IDBKey) (v : JsonValue) :
    ∀ recs : List (IDBKey × JsonValue), (recs.map Prod.fst).Nodup →
      recordsFor k (putRecord k v recs) = [(k, v)] := by
  intro recs
  induction recs with
  | nil => intro _; simp [putRecord, recordsFor]
  | cons hd tl ih =>
    intro hnd
    obtain ⟨k2, v2⟩ := hd
    simp only [List.map_cons, List.nodup_cons] at hnd
    by_cases hk : k2 = k
    · subst hk
      simp only [putRecord, if_pos rfl, recordsFor, List.filter_cons]
      rw [if_pos (by simp)]
      have := recordsFor_eq_nil k2 tl hnd.1
      simpa [recordsFor] using this
    · simp only [putRecord, if_neg hk, recordsFor, List.filter_cons]
      rw [if_neg (by simpa using hk)]
      exact ih hnd.2

theorem saveAll_nodup :
    ∀ (es : List Entry) (st : EntriesState), (st.records.map Prod.fst).Nodup →
      ((saveAll es st).records.map Prod.fst).Nodup := by
  intro es
  induction es with
  | nil => intro st h; exact h
  | cons e es ih =>
    intro st h
    exact ih (saveEntry e st) (putRecord_nodup _ _ _ h)

/-! ## Claims about the entry store -/

/-- C6: under any sequence of `saveEntry` calls a collection with unique
keys keeps unique keys, and saving twice under the same `id` leaves exactly
one record under that `id`, holding the second entry's full serialized
content (replaced, not merged). -/
theorem saveEntry_upsert_unique (st : EntriesState) (es : List Entry) (e1 e2 : Entry)
    (hnd : (st.records.map Prod.fst).Nodup) (_hid : e1.id = e2.id) :
    ((saveAll es st).records.map Prod.fst).Nodup ∧
    recordsFor (.str e2.id) (saveEntry e2 (saveEntry e1 st)).records =
      [(.str e2.id, entryToJson e2)] := by
  constructor
  · exact saveAll_nodup es st hnd
  · exact recordsFor_putRecord _ _ _ (putRecord_nodup _ _ _ hnd)

/-- C6 witness: two saves under the id `"a"` on an initially empty store
leave exactly one record, carrying the second content. -/
theorem saveEntry_upsert_unique_witness :
    ((saveAll [] (⟨[]⟩ : EntriesState)).records.map Prod.fst).Nodup ∧
    recordsFor (.str ("a"))
      (saveEntry ⟨("a"), ("B"), ("y"), 2, 2, ("m"), [], ("c"), true, false, [], none, none, none⟩
        (saveEntry ⟨("a"), ("A"), ("x"), 1, 1, ("m"), [], ("c"), false, false, [], none, none, none⟩
          ⟨[]⟩)).records =
      [(.str ("a"),
        entryToJson ⟨("a"), ("B"), ("y"), 2, 2, ("m"), [], ("c"), true, false, [], none, none, none⟩)] :=
  saveEntry_upsert_unique ⟨[]⟩ []
    ⟨("a"), ("A"), ("x"), 1, 1, ("m"), [], ("c"), false, false, [], none, none, none⟩
    ⟨("a"), ("B"), ("y"), 2, 2, ("m"), [], ("c"), true, false, [], none, none, none⟩
    (by simp) rfl

/-- C7: on a collection of numerically dated (entry-shaped) records,
`getAllEntries` returns the stored values sorted by `date` descending — a
permutation of the stored collection in descending date order — and the
empty collection yields the empty sequence (the read itself cannot fail in
this model; only the surrounding request can). -/
theorem getAllEntries_sorted_desc (st : EntriesState)
    (_ : ∀ v ∈ st.records.map Prod.snd, (entryDate? v).isSome) :
    List.Sorted dateDesc (getAllEntries st) ∧
    (getAllEntries st).Perm (st.records.map Prod.snd) ∧
    getAllEntries ⟨[]⟩ = [] :=
  ⟨List.sorted_insertionSort dateDesc _, List.perm_insertionSort dateDesc _, rfl⟩

/-- C7 witness: on stored dates `[100, 300, 200]` the enumeration is sorted
descending and a permutation of the store. -/
theorem getAllEntries_sorted_desc_witness :
    List.Sorted dateDesc (getAllEntries ⟨[
        (.str ("a"), .obj [(("id"), .str ("a")), (("date"), .num 100)]),
        (.str ("b"), .obj [(("id"), .str ("b")), (("date"), .num 300)]),
        (.str ("c"), .obj [(("id"), .str ("c")), (("date"), .num 200)])]⟩) ∧
    (getAllEntries ⟨[
        (.str ("a"), .obj [(("id"), .str ("a")), (("date"), .num 100)]),
        (.str ("b"), .obj [(("id"), .str ("b")), (("date"), .num 300)]),
        (.str ("c"), .obj [(("id"), .str ("c")), (("date"), .num 200)])]⟩).Perm
      ((⟨[
        (.str ("a"), .obj [(("id"), .str ("a")), (("date"), .num 100)]),
        (.str ("b"), .obj [(("id"), .str ("b")), (("date"), .num 300)]),
        (.str ("c"), .obj [(("id"), .str ("c")), (("date"), .num 200)])]⟩ : EntriesState).records.map Prod.snd) ∧
    getAllEntries ⟨[]⟩ = [] :=
  getAllEntries_sorted_desc _ (by decide)

/-! ## Import lemmas -/


theorem runPuts_all_ok :
    ∀ (items : List JsonValue), (∀ v ∈ items, (jsonKeyOf v).isSome) →
      ∀ recs, (runPuts items recs).2 = false := by
  intro items
  induction items with
  | nil => intro _ recs; rfl
  | cons v vs ih =>
    intro h recs
    have hv : (jsonKeyOf v).isSome := h v (by simp)
    obtain ⟨k, hk⟩ := Option.isSome_iff_exists.mp hv
    simp only [runPuts, hk]
    exact ih (fun w hw => h w (by simp [hw])) _

theorem runPuts_append_bad :
    ∀ (pre : List JsonValue), (∀ v ∈ pre, (jsonKeyOf v).isSome) →
      ∀ (bad : JsonValue) (rest : List JsonValue) recs, jsonKeyOf bad = none →
        runPuts (pre ++ bad :: rest) recs = ((runPuts pre recs).1, true) := by
  intro pre
  induction pre with
  | nil =>
    intro _ bad rest recs hbad
    simp [runPuts, hbad]
  | cons v vs ih =>
    intro h bad rest recs hbad
    have hv : (jsonKeyOf v).isSome := h v (by simp)
    obtain ⟨k, hk⟩ := Option.isSome_iff_exists.mp hv
    simp only [List.cons_append, runPuts, hk]
    exact ih (fun w hw => h w (by simp [hw])) bad rest _ hbad

theorem runPuts_lookup :
    ∀ (items : List JsonValue) (recs recs1 : List (IDBKey × JsonValue)),
      runPuts items recs = (recs1, false) →
      ∀ k, lookupRec k recs1 =
        (match lastWrite k items with
         | some v => some v
         | none => lookupRec k recs) := by
  intro items
  induction items with
  | nil =>
    intro recs recs1 h k
    simp only [runPuts] at h
    cases h
    rfl
  | cons v vs ih =>
    intro recs recs1 h k
    simp only [runPuts] at h
    cases hk : jsonKeyOf v with
    | none => rw [hk] at h; cases h
    | some kv =>
      rw [hk] at h
      have := ih _ _ h k
      rw [this]
      cases hlast : lastWrite k vs with
      | some w => simp [lastWrite, hlast]
      | none =>
        simp only [lastWrite, hlast, lookupRec_putRecord, hk]
        by_cases hkk : k = kv
        · subst hkk
          simp
        · have hkk2 : ¬(some kv = some k) := by
            intro hcon
            exact hkk (Option.some.injEq .. ▸ hcon).symm
          simp [hkk, hkk2]

/-! ## Claims about the snapshot codec's import -/

/-- C2 counterexample: the text `[{"id":"a"}]` does not decode to a sequence
of entry-shaped records (the record has none of the other `Entry` fields),
yet `importData` succeeds and admits it instead of failing with
`InvalidFormat`. -/
theorem importData_nonentry_accepted_cex :
    importData ("[\x7b\"id\":\"a\"\x7d]") ⟨[]⟩ =
      (⟨[(.str ("a"), .obj [(("id"), .str ("a"))])]⟩, none) := rfl

/-- C2 (amended): for every input text that is not well-formed JSON or whose
decoded value is not iterable (e.g. `"not json"` or `"{}"`), `importData`
fails with `InvalidFormat` and the existing collection is completely
unchanged; texts decoding to an iterable sequence are checked only for a
valid `id` key on each record, not for entry shape. -/
theorem importData_invalidFormat_unchanged :
    (∀ (s : String) (st : EntriesState), decodeSeq s = none →
      importData s st = (st, some .invalidFormat)) ∧
    decodeSeq ("not json") = none ∧ decodeSeq ("\x7b\x7d") = none := by
  refine ⟨fun s st h => ?_, rfl, rfl⟩
  simp [importData, importDataTx, h]

/-- C2 witness: `importData "not json"` on a one-record store reports
`InvalidFormat` and leaves the record in place. -/
theorem importData_invalidFormat_unchanged_witness :
    importData ("not json") ⟨[(.str ("k"), .obj [(("id"), .str ("k"))])]⟩ =
      (⟨[(.str ("k"), .obj [(("id"), .str ("k"))])]⟩, some .invalidFormat) :=
  importData_invalidFormat_unchanged.1 ("not json")
    ⟨[(.str ("k"), .obj [(("id"), .str ("k"))])]⟩ rfl

/-- C3 counterexample: a record missing the required field `date` is
admitted without any failure, and a sequence whose second record is missing
`id` reports `InvalidFormat` while still admitting the first record — not
"no record of that sequence". -/
theorem importData_missing_required_cex :
    importData ("[\x7b\"id\":\"b\"\x7d]") ⟨[]⟩ =
      (⟨[(.str ("b"), .obj [(("id"), .str ("b"))])]⟩, none) ∧
    importData ("[\x7b\"id\":\"c\",\"date\":3\x7d,\x7b\"date\":4\x7d]") ⟨[]⟩ =
      (⟨[(.str ("c"), .obj [(("id"), .str ("c")), (("date"), .num 3)])]⟩,
        some .invalidFormat) := ⟨rfl, rfl⟩

/-- C3 (amended): a decoded record whose `id` is missing (or not a valid
key) makes `importData` fail with `InvalidFormat`, though the records
before it in the sequence are still committed; records with a valid `id`
key — in particular records missing `date` or missing the optional fields
`audio`, `drawing`, `location` — never cause a failure. -/
theorem importData_requiredFields :
    (∀ (s : String) (st : EntriesState) (items : List JsonValue),
      decodeSeq s = some items → (∀ v ∈ items, (jsonKeyOf v).isSome) →
      (importData s st).2 = none) ∧
    (∀ (s : String) (st : EntriesState) (pre : List JsonValue) (bad : JsonValue)
      (rest : List JsonValue),
      decodeSeq s = some (pre ++ bad :: rest) → jsonKeyOf bad = none →
      (∀ v ∈ pre, (jsonKeyOf v).isSome) →
      importData s st = (⟨(runPuts pre st.records).1⟩, some .invalidFormat)) := by
  constructor
  · intro s st items hdec hall
    have h2 := runPuts_all_ok items hall st.records
    simp only [importData, importDataTx, hdec]
    cases hr : runPuts items st.records with
    | mk recs err =>
      rw [hr] at h2
      cases err with
      | true => cases h2
      | false => rfl
  · intro s st pre bad rest hdec hbad hpre
    have h2 := runPuts_append_bad pre hpre bad rest st.records hbad
    simp [importData, importDataTx, hdec, h2]

/-- C3 witness: a record with an `id` but no `date` imports with no error;
a record with no `id` at the head of the sequence fails with
`InvalidFormat` and commits nothing before it. -/
theorem importData_requiredFields_witness :
    (importData ("[\x7b\"id\":\"w\",\"date\":1\x7d]") ⟨[]⟩).2 = none ∧
    importData ("[\x7b\"date\":9\x7d]") ⟨[]⟩ =
      (⟨(runPuts [] (⟨[]⟩ : EntriesState).records).1⟩, some .invalidFormat) :=
  ⟨importData_requiredFields.1 ("[\x7b\"id\":\"w\",\"date\":1\x7d]") ⟨[]⟩
      [.obj [(("id"), .str ("w")), (("date"), .num 1)]] rfl (by
        intro v hv
        simp only [List.mem_singleton] at hv
        subst hv
        rfl),
    importData_requiredFields.2 ("[\x7b\"date\":9\x7d]") ⟨[]⟩
      [] (.obj [(("date"), .num 9)]) [] rfl rfl (by intro v hv; cases hv)⟩

/-- C4 counterexample: the text `[{"id":"a","date":1},{"date":2}]` parses
successfully to a two-record sequence, yet `importData` commits exactly the
first record while reporting `InvalidFormat` — neither every record nor
none. -/
theorem importData_partial_commit_cex :
    decodeSeq ("[\x7b\"id\":\"a\",\"date\":1\x7d,\x7b\"date\":2\x7d]") =
      some [.obj [(("id"), .str ("a")), (("date"), .num 1)],
            .obj [(("date"), .num 2)]] ∧
    importData ("[\x7b\"id\":\"a\",\"date\":1\x7d,\x7b\"date\":2\x7d]") ⟨[]⟩ =
      (⟨[(.str ("a"), .obj [(("id"), .str ("a")), (("date"), .num 1)])]⟩,
        some .invalidFormat) := ⟨rfl, rfl⟩

/-- C4 (amended): for every successfully parsed import sequence in which
every record carries a valid `id` key, the single readwrite transaction
commits all records together, and an engine-level transaction failure
midway commits none of them.  When some record lacks a valid `id` key the
synchronous `DataError` makes `importData` report `InvalidFormat` while the
records already queued still commit with the transaction. -/
theorem importData_atomic_valid_keys (s : String) (st : EntriesState)
    (items : List JsonValue) (hdec : decodeSeq s = some items)
    (hall : ∀ v ∈ items, (jsonKeyOf v).isSome) :
    importDataTx true s st = (⟨(runPuts items st.records).1⟩, none) ∧
    importDataTx false s st = (st, some .engineAbort) := by
  have h2 := runPuts_all_ok items hall st.records
  cases hr : runPuts items st.records with
  | mk recs err =>
    rw [hr] at h2
    cases err with
    | true => cases h2
    | false =>
      constructor
      · simp [importDataTx, hdec, hr]
      · simp [importDataTx, hdec, hr]

/-- C4 witness: a two-record import with valid ids commits both records
when the transaction commits and none when it aborts. -/
theorem importData_atomic_valid_keys_witness :
    importDataTx true ("[\x7b\"id\":\"a\"\x7d,\x7b\"id\":\"b\"\x7d]") ⟨[]⟩ =
      (⟨(runPuts [.obj [(("id"), .str ("a"))], .obj [(("id"), .str ("b"))]]
          (⟨[]⟩ : EntriesState).records).1⟩, none) ∧
    importDataTx false ("[\x7b\"id\":\"a\"\x7d,\x7b\"id\":\"b\"\x7d]") ⟨[]⟩ =
      (⟨[]⟩, some .engineAbort) :=
  importData_atomic_valid_keys ("[\x7b\"id\":\"a\"\x7d,\x7b\"id\":\"b\"\x7d]") ⟨[]⟩
    [.obj [(("id"), .str ("a"))], .obj [(("id"), .str ("b"))]] rfl (by
      intro v hv
      simp only [List.mem_cons, List.mem_singleton] at hv
      rcases hv with h | h | h
      · subst h; rfl
      · subst h; rfl
      · cases h)

/-- C9: on every successful `importData`, an existing entry whose key
matches an imported record holds that record's (last) imported value, every
entry whose key appears in no imported record is unchanged, and no entry is
deleted. -/
theorem importData_overwrite_frame (s : String) (st st' : EntriesState)
    (h : importData s st = (st', none)) :
    ∃ items, decodeSeq s = some items ∧
      (∀ k, lastWrite k items = none →
        lookupRec k st'.records = lookupRec k st.records) ∧
      (∀ k v, lastWrite k items = some v → lookupRec k st'.records = some v) ∧
      (∀ k, (lookupRec k st.records).isSome → (lookupRec k st'.records).isSome) := by
  cases hdec : decodeSeq s with
  | none =>
    have heq : importData s st = (st, some .invalidFormat) := by
      simp [importData, importDataTx, hdec]
    rw [heq] at h
    simp at h
  | some items =>
    cases hr : runPuts items st.records with
    | mk recs err =>
      cases err with
      | true =>
        have heq : importData s st = (⟨recs⟩, some .invalidFormat) := by
          simp [importData, importDataTx, hdec, hr]
        rw [heq] at h
        simp at h
      | false =>
        have heq : importData s st = (⟨recs⟩, none) := by
          simp [importData, importDataTx, hdec, hr]
        rw [heq] at h
        have hst : (⟨recs⟩ : EntriesState) = st' := congrArg Prod.fst h
        have hchar := runPuts_lookup items st.records recs hr
        refine ⟨items, rfl, ?_, ?_, ?_⟩
        · intro k hnone
          rw [← hst]
          simpa [hnone] using hchar k
        · intro k v hsomev
          rw [← hst]
          simpa [hsomev] using hchar k
        · intro k hk
          rw [← hst]
          have := hchar k
          cases hlast : lastWrite k items with
          | some w => simp [hlast] at this; simp [this]
          | none => simp [hlast] at this; simpa [this] using hk

/-- C9 witness: importing `[{"id":"a","date":5}]` over a store holding keys
`a` and `z` overwrites `a`, keeps `z` unchanged, and deletes nothing. -/
theorem importData_overwrite_frame_witness :
    ∃ items, decodeSeq ("[\x7b\"id\":\"a\",\"date\":5\x7d]") = some items ∧
      (∀ k, lastWrite k items = none →
        lookupRec k (⟨[(.str ("a"), .obj [(("id"), .str ("a")), (("date"), .num 5)]),
                       (.str ("z"), .obj [(("id"), .str ("z")), (("date"), .num 2)])]⟩ :
            EntriesState).records = lookupRec k
          ((⟨[(.str ("a"), .obj [(("id"), .str ("a")), (("date"), .num 1)]),
              (.str ("z"), .obj [(("id"), .str ("z")), (("date"), .num 2)])]⟩ :
            EntriesState)).records) ∧
      (∀ k v, lastWrite k items = some v →
        lookupRec k (⟨[(.str ("a"), .obj [(("id"), .str ("a")), (("date"), .num 5)]),
                       (.str ("z"), .obj [(("id"), .str ("z")), (("date"), .num 2)])]⟩ :
            EntriesState).records = some v) ∧
      (∀ k, (lookupRec k
          ((⟨[(.str ("a"), .obj [(("id"), .str ("a")), (("date"), .num 1)]),
              (.str ("z"), .obj [(("id"), .str ("z")), (("date"), .num 2)])]⟩ :
            EntriesState)).records).isSome →
        (lookupRec k (⟨[(.str ("a"), .obj [(("id"), .str ("a")), (("date"), .num 5)]),
                        (.str ("z"), .obj [(("id"), .str ("z")), (("date"), .num 2)])]⟩ :
            EntriesState).records).isSome) := by
  exact importData_overwrite_frame _ _ _ rfl

/-! ## Codec round-trip: lexical lemmas -/


theorem skipWs_cons_not (c : Char) (t : List Char) (h : isWs c = false) :
    skipWs (c :: t) = c :: t := by
  simp [skipWs, h]

theorem ws_of_digit (c : Char) (hd : isDigit c = true) : isWs c = false := by
  by_contra hw
  rw [Bool.not_eq_false] at hw
  simp only [isWs, Bool.or_eq_true, decide_eq_true_eq] at hw
  rcases hw with ((h1 | h1) | h1) | h1 <;> (subst h1; exact absurd hd (by decide))

theorem digit_facts (c : Char) (h : isDigit c = true) :
    c ≠ ']' ∧ c ≠ '-' ∧ c ≠ lbrace ∧ c ≠ '[' ∧ c ≠ '"' ∧ c ≠ 'f' ∧ c ≠ 't' ∧ c ≠ 'n' := by
  have ne : ∀ d : Char, isDigit d = false → c ≠ d := by
    intro d hd he
    subst he
    rw [h] at hd
    cases hd
  exact ⟨ne _ (by decide), ne _ (by decide), ne _ (by decide), ne _ (by decide),
    ne _ (by decide), ne _ (by decide), ne _ (by decide), ne _ (by decide)⟩

theorem digitChar_spec :
    ∀ k : Nat, k < 10 → isDigit (digitChar k) = true ∧ dval (digitChar k) = k := by
  decide

theorem natCharsF_irrel (n : Nat) :
    ∀ f1 f2 : Nat, n < f1 → n < f2 → natCharsF f1 n = natCharsF f2 n := by
  induction n using Nat.strongRecOn with
  | _ n ih =>
    intro f1 f2 h1 h2
    cases f1 with
    | zero => omega
    | succ g1 =>
      cases f2 with
      | zero => omega
      | succ g2 =>
        by_cases hn : n < 10
        · simp [natCharsF, hn]
        · have hd : n / 10 < n := Nat.div_lt_self (by omega) (by omega)
          simp only [natCharsF, if_neg hn]
          rw [ih (n / 10) hd g1 g2 (by omega) (by omega)]

theorem natChars_unfold (n : Nat) :
    natChars n = if n < 10 then [digitChar n] else natChars (n / 10) ++ [digitChar (n % 10)] := by
  by_cases hn : n < 10
  · simp [natChars, natCharsF, hn]
  · have hd : n / 10 < n := Nat.div_lt_self (by omega) (by omega)
    rw [if_neg hn,
      show natChars n =
        if n < 10 then [digitChar n] else natCharsF n (n / 10) ++ [digitChar (n % 10)] from rfl,
      if_neg hn]
    congr 1
    exact natCharsF_irrel (n / 10) n (n / 10 + 1) (by omega) (by omega)

theorem natChars_ne_nil (n : Nat) : natChars n ≠ [] := by
  rw [natChars_unfold]
  by_cases hn : n < 10 <;> simp [hn]

theorem natChars_digits (n : Nat) : ∀ c ∈ natChars n, isDigit c = true := by
  induction n using Nat.strongRecOn with
  | _ n ih =>
    rw [natChars_unfold]
    intro c hc
    by_cases hn : n < 10
    · rw [if_pos hn] at hc
      simp only [List.mem_singleton] at hc
      subst hc
      exact (digitChar_spec n hn).1
    · rw [if_neg hn] at hc
      rw [List.mem_append] at hc
      rcases hc with hc | hc
      · exact ih (n / 10) (Nat.div_lt_self (by omega) (by omega)) c hc
      · simp only [List.mem_singleton] at hc
        subst hc
        exact (digitChar_spec (n % 10) (Nat.mod_lt _ (by omega))).1

theorem digitsToNat_natChars (n : Nat) : digitsToNat (natChars n) = n := by
  induction n using Nat.strongRecOn with
  | _ n ih =>
    rw [natChars_unfold]
    by_cases hn : n < 10
    · simp only [if_pos hn, digitsToNat, List.foldl_cons, List.foldl_nil]
      rw [(digitChar_spec n hn).2]
      omega
    · simp only [if_neg hn, digitsToNat, List.foldl_append, List.foldl_cons, List.foldl_nil]
      have h1 := ih (n / 10) (Nat.div_lt_self (by omega) (by omega))
      rw [show (natChars (n / 10)).foldl (fun a c => a * 10 + dval c) 0 = digitsToNat (natChars (n / 10)) from rfl, h1,
        (digitChar_spec (n % 10) (Nat.mod_lt _ (by omega))).2]
      omega

theorem natChars_cons (n : Nat) :
    ∃ c t, natChars n = c :: t ∧ isDigit c = true := by
  cases h : natChars n with
  | nil => exact absurd h (natChars_ne_nil n)
  | cons c t =>
    refine ⟨c, t, rfl, natChars_digits n c ?_⟩
    rw [h]
    exact List.mem_cons_self c t

theorem takeDigits_stop (cs : List Char) (h : restOk cs = true) :
    takeDigits cs = ([], cs) := by
  cases cs with
  | nil => rfl
  | cons c t =>
    simp only [restOk, Bool.not_eq_true'] at h
    simp [takeDigits, h]

theorem takeDigits_run :
    ∀ rest : List Char, takeDigits rest = ([], rest) →
      ∀ ds : List Char, (∀ c ∈ ds, isDigit c = true) →
        takeDigits (ds ++ rest) = (ds, rest) := by
  intro rest hrest ds
  induction ds with
  | nil => intro _; simpa using hrest
  | cons d t ih =>
    intro hall
    have hd : isDigit d = true := hall d (List.mem_cons_self d t)
    have hrec := ih fun x hx => hall x (List.mem_cons_of_mem d hx)
    simp [takeDigits, hd, hrec]

theorem parseNumPos_natChars (n : Nat) (rest : List Char) (h : restOk rest = true) :
    parseNumPos (natChars n ++ rest) = some (n, rest) := by
  have htd : takeDigits (natChars n ++ rest) = (natChars n, rest) :=
    takeDigits_run rest (takeDigits_stop rest h) _ (natChars_digits n)
  obtain ⟨c, t, hct, -⟩ := natChars_cons n
  rw [parseNumPos, htd, hct]
  simp only []
  rw [← hct, digitsToNat_natChars]

theorem parseStrBody_escape (c : Char) (acc z : List Char) :
    parseStrBody acc (escapeCh c ++ z) = parseStrBody (c :: acc) z := by
  by_cases h1 : c = '"'
  · subst h1
    simp [escapeCh, parseStrBody, unescCh]
  · by_cases h2 : c = '\\'
    · subst h2
      simp [escapeCh, parseStrBody, unescCh]
    · by_cases h3 : c = Char.ofNat 10
      · subst h3
        simp [escapeCh, parseStrBody, unescCh]
      · by_cases h4 : c = Char.ofNat 13
        · subst h4
          simp [escapeCh, parseStrBody, unescCh]
        · by_cases h5 : c = Char.ofNat 9
          · subst h5
            simp [escapeCh, parseStrBody, unescCh]
          · rw [escapeCh, if_neg h1, if_neg h2, if_neg h3, if_neg h4, if_neg h5]
            rw [show ([c] : List Char) ++ z = c :: z from rfl, parseStrBody.eq_def]
            simp [h1, h2]

theorem parseStrBody_escapeList (cs : List Char) :
    ∀ (acc rest : List Char),
      parseStrBody acc (escapeList cs ++ '"' :: rest) =
        some (String.mk (acc.reverse ++ cs), rest) := by
  induction cs with
  | nil =>
    intro acc rest
    simp [escapeList, parseStrBody]
  | cons c cs ih =>
    intro acc rest
    rw [escapeList, List.append_assoc, parseStrBody_escape, ih]
    simp

theorem parseStrBody_renderStr (s : String) (rest : List Char) :
    parseStrBody [] (escapeList s.data ++ '"' :: rest) = some (s, rest) := by
  rw [parseStrBody_escapeList]
  rfl

/-- Every rendered value begins with a character that is not whitespace,
not `]`, not `,` and not `}`. -/
theorem renderV_head (v : JsonValue) :
    ∃ c t, renderV v = c :: t ∧ isWs c = false ∧ c ≠ ']' := by
  cases v with
  | num i =>
    cases i with
    | ofNat n =>
      obtain ⟨c, t, hct, hc⟩ := natChars_cons n
      exact ⟨c, t, by rw [renderV, intChars, hct], ws_of_digit c hc, (digit_facts c hc).1⟩
    | negSucc m => exact ⟨'-', _, rfl, by decide, by decide⟩
  | bool b => cases b <;> exact ⟨_, _, rfl, by decide, by decide⟩
  | arr xs => cases xs <;> exact ⟨_, _, rfl, by decide, by decide⟩
  | obj fs => cases fs <;> exact ⟨_, _, rfl, by decide, by decide⟩
  | null => exact ⟨_, _, rfl, by decide, by decide⟩
  | str s => exact ⟨_, _, rfl, by decide, by decide⟩

theorem skipWs_renderV (v : JsonValue) (x : List Char) :
    skipWs (renderV v ++ x) = renderV v ++ x := by
  obtain ⟨c, t, hct, hws, -⟩ := renderV_head v
  rw [hct, List.cons_append]
  exact skipWs_cons_not c (t ++ x) hws

theorem renderV_length_pos (v : JsonValue) : 0 < (renderV v).length := by
  obtain ⟨c, t, hct, -, -⟩ := renderV_head v
  simp [hct]

theorem renderField_length_pos (f : String × JsonValue) : 0 < (renderField f).length := by
  obtain ⟨k, v⟩ := f
  simp [renderField, renderStr]

theorem restOk_renderTail (xs : List JsonValue) (rest : List Char) :
    restOk (renderTail xs ++ ']' :: rest) = true := by
  cases xs <;> rfl

theorem restOk_renderFTail (fs : List (String × JsonValue)) (rest : List Char) :
    restOk (renderFTail fs ++ rbrace :: rest) = true := by
  cases fs <;> rfl

theorem parseVal_num (i : Int) (fuel : Nat) (rest : List Char) (hrest : restOk rest = true) :
    parseVal (fuel + 1) (intChars i ++ rest) = some (.num i, rest) := by
  cases i with
  | ofNat n =>
    obtain ⟨c, t, hct, hc⟩ := natChars_cons n
    obtain ⟨-, hm, hbc, hbk, hq, hf, ht, hn⟩ := digit_facts c hc
    have hws := ws_of_digit c hc
    have harg : intChars (Int.ofNat n) ++ rest = c :: (t ++ rest) := by
      rw [intChars, hct, List.cons_append]
    rw [harg]
    have step := skipWs_cons_not c (t ++ rest) hws
    simp only [parseVal, step, if_neg hn, if_neg ht, if_neg hf, if_neg hq, if_neg hbk,
      if_neg hbc, if_neg hm, hc, if_pos]
    rw [show c :: (t ++ rest) = natChars n ++ rest from by rw [hct, List.cons_append],
      parseNumPos_natChars n rest hrest]
    rfl
  | negSucc m =>
    have harg : intChars (Int.negSucc m) ++ rest = '-' :: (natChars (m + 1) ++ rest) := by
      rw [intChars, List.cons_append]
    rw [harg]
    have step := skipWs_cons_not '-' (natChars (m + 1) ++ rest) (by decide)
    simp only [parseVal, step, if_neg (by decide : ¬('-' = 'n')),
      if_neg (by decide : ¬('-' = 't')), if_neg (by decide : ¬('-' = 'f')),
      if_neg (by decide : ¬('-' = '"')), if_neg (by decide : ¬('-' = '[')),
      if_neg (by decide : ¬('-' = lbrace)), if_pos rfl]
    rw [parseNumPos_natChars (m + 1) rest hrest]
    have hns : -((m + 1 : Nat) : Int) = Int.negSucc m := by
      rw [Int.negSucc_eq]
      push_cast
      ring
    simp only [if_true]
    rw [hns]

mutual
theorem rt_val : ∀ (v : JsonValue) (fuel : Nat) (rest : List Char),
    (renderV v).length < fuel → restOk rest = true →
    parseVal fuel (renderV v ++ rest) = some (v, rest)
  | _, 0, _, hf, _ => absurd hf (Nat.not_lt_zero _)
  | .null, fuel + 1, rest, _, _ => rfl
  | .bool true, fuel + 1, rest, _, _ => rfl
  | .bool false, fuel + 1, rest, _, _ => rfl
  | .num i, fuel + 1, rest, _, hok => parseVal_num i fuel rest hok
  | .str s, fuel + 1, rest, _, _ => by
    have harg : renderV (.str s) ++ rest = '"' :: (escapeList s.data ++ ('"' :: rest)) := by
      simp [renderV, renderStr, List.append_assoc]
    have step : ∀ z, parseVal (fuel + 1) ('"' :: z) =
        (match parseStrBody [] z with
         | some (s2, r2) => some (.str s2, r2)
         | none => none) := fun z => rfl
    rw [harg, step, parseStrBody_renderStr]
  | .arr [], fuel + 1, rest, _, _ => rfl
  | .arr (x :: xs), fuel + 1, rest, hf, _ => by
    have harg : renderV (.arr (x :: xs)) ++ rest
        = '[' :: (renderV x ++ (renderTail xs ++ ']' :: rest)) := by
      simp [renderV, List.append_assoc]
    have step : ∀ z, parseVal (fuel + 1) ('[' :: z) =
        (match skipWs z with
         | [] => none
         | c2 :: r2 =>
           if c2 = ']' then some (.arr [], r2)
           else
             match parseItems fuel (c2 :: r2) with
             | some (xs2, r3) => some (.arr xs2, r3)
             | none => none) := fun z => rfl
    obtain ⟨c, t, hct, hws, hbr⟩ := renderV_head x
    have hkey : parseItems fuel (renderV x ++ (renderTail xs ++ ']' :: rest))
        = some (x :: xs, rest) := by
      apply rt_items
      simp only [renderV, List.length_cons, List.length_append,
        List.length_singleton] at hf
      omega
    rw [harg, step, skipWs_renderV, hct, List.cons_append]
    simp only [if_neg hbr]
    rw [← List.cons_append, ← hct, hkey]
  | .obj [], fuel + 1, rest, _, _ => rfl
  | .obj ((k, v) :: fs), fuel + 1, rest, hf, _ => by
    have harg : renderV (.obj ((k, v) :: fs)) ++ rest
        = lbrace :: (renderField (k, v) ++ (renderFTail fs ++ rbrace :: rest)) := by
      simp [renderV, List.append_assoc]
    have step : ∀ z, parseVal (fuel + 1) (lbrace :: z) =
        (match skipWs z with
         | [] => none
         | c2 :: r2 =>
           if c2 = rbrace then some (.obj [], r2)
           else
             match parseFields fuel (c2 :: r2) with
             | some (fs2, r3) => some (.obj fs2, r3)
             | none => none) := fun z => rfl
    have hcons : renderField (k, v) ++ (renderFTail fs ++ rbrace :: rest)
        = '"' :: ((escapeList k.data ++ ['"']) ++ (':' :: renderV v ++ (renderFTail fs ++ rbrace :: rest))) := by
      simp [renderField, renderStr, List.append_assoc, List.cons_append]
    have hkey : parseFields fuel (renderField (k, v) ++ (renderFTail fs ++ rbrace :: rest))
        = some ((k, v) :: fs, rest) := by
      apply rt_fields
      simp only [renderV, List.length_cons, List.length_append,
        List.length_singleton] at hf
      omega
    rw [harg, step, hcons, skipWs_cons_not '"' _ (by decide)]
    simp only [if_neg (by decide : ¬('"' = rbrace))]
    rw [← hcons, hkey]
termination_by v _ _ _ _ => sizeOf v
theorem rt_items : ∀ (x : JsonValue) (xs : List JsonValue) (fuel : Nat) (rest : List Char),
    (renderV x).length + (renderTail xs).length + 1 < fuel →
    parseItems fuel (renderV x ++ (renderTail xs ++ ']' :: rest)) = some (x :: xs, rest)
  | _, _, 0, _, hf => absurd hf (Nat.not_lt_zero _)
  | x, [], fuel + 1, rest, hf => by
    have hx : (renderV x).length < fuel := by
      simp only [renderTail, List.length_nil] at hf
      omega
    have hv := rt_val x fuel (']' :: rest) hx rfl
    rw [show renderV x ++ (renderTail ([] : List JsonValue) ++ ']' :: rest)
        = renderV x ++ (']' :: rest) from rfl]
    simp only [parseItems]
    rw [hv]
    rfl
  | x, y :: ys, fuel + 1, rest, hf => by
    simp only [renderTail, List.length_cons, List.length_append] at hf
    have hx : (renderV x).length < fuel := by omega
    have hv := rt_val x fuel (',' :: (renderV y ++ (renderTail ys ++ ']' :: rest))) hx rfl
    have hxpos := renderV_length_pos x
    have hkey := rt_items y ys fuel rest (by omega)
    have harg : renderV x ++ (renderTail (y :: ys) ++ ']' :: rest)
        = renderV x ++ (',' :: (renderV y ++ (renderTail ys ++ ']' :: rest))) := by
      simp [renderTail, List.append_assoc, List.cons_append]
    rw [harg]
    simp only [parseItems]
    rw [hv]
    simp [skipWs, isWs, hkey]
termination_by x xs _ _ _ => sizeOf x + sizeOf xs
theorem rt_fields : ∀ (f : String × JsonValue) (fs : List (String × JsonValue))
    (fuel : Nat) (rest : List Char),
    (renderField f).length + (renderFTail fs).length + 1 < fuel →
    parseFields fuel (renderField f ++ (renderFTail fs ++ rbrace :: rest)) = some (f :: fs, rest)
  | _, _, 0, _, hf => absurd hf (Nat.not_lt_zero _)
  | (k, v), fs, fuel + 1, rest, hf => by
    have hlv : (renderV v).length < fuel := by
      simp only [renderField, renderStr, List.length_append, List.length_cons] at hf
      omega
    have hv := rt_val v fuel (renderFTail fs ++ rbrace :: rest) hlv (restOk_renderFTail fs rest)
    have harg : renderField (k, v) ++ (renderFTail fs ++ rbrace :: rest)
        = '"' :: (escapeList k.data ++ ('"' :: (':' :: (renderV v ++ (renderFTail fs ++ rbrace :: rest))))) := by
      simp [renderField, renderStr, List.append_assoc, List.cons_append]
    have step : ∀ z, parseFields (fuel + 1) ('"' :: z) =
        (match parseStrBody [] z with
         | none => none
         | some (k2, r1) =>
           match skipWs r1 with
           | [] => none
           | c1 :: r2 =>
             if c1 = ':' then
               (match parseVal fuel r2 with
                | none => none
                | some (v2, r3) =>
                  match skipWs r3 with
                  | [] => none
                  | c :: r4 =>
                    if c = ',' then
                      match parseFields fuel r4 with
                      | some (fs2, r5) => some ((k2, v2) :: fs2, r5)
                      | none => none
                    else if c = rbrace then some ([(k2, v2)], r4)
                    else none)
             else none) := fun z => rfl
    rw [harg, step, parseStrBody_renderStr]
    cases fs with
    | nil =>
      simp only [renderFTail, List.nil_append] at hv
      simp [skipWs, isWs, hv, renderFTail,
        eq_false (by decide : ¬(rbrace = ' ')),
        eq_false (by decide : ¬(rbrace = Char.ofNat 10)),
        eq_false (by decide : ¬(rbrace = Char.ofNat 9)),
        eq_false (by decide : ¬(rbrace = Char.ofNat 13)),
        eq_false (by decide : ¬(rbrace = ','))]
    | cons f2 fs2 =>
      have hfpos := renderField_length_pos (k, v)
      simp only [renderFTail, List.length_cons, List.length_append] at hf
      have hkey := rt_fields f2 fs2 fuel rest (by omega)
      simp only [renderFTail, List.cons_append, List.append_assoc] at hv
      simp [skipWs, isWs, hv, hkey, renderFTail, List.cons_append, List.append_assoc]
termination_by f fs _ _ _ => sizeOf f + sizeOf fs
end

/-- The codec round-trip: parsing a serialized value recovers it exactly. -/
theorem JSON.parse_stringify (v : JsonValue) : JSON.parse (JSON.stringify v) = some v := by
  have h := rt_val v ((renderV v).length + 1) [] (Nat.lt_succ_self _) rfl
  rw [List.append_nil] at h
  show (match parseVal ((renderV v).length + 1) (renderV v) with
       | some (v2, r) => if skipWs r = [] then some v2 else none
       | none => none) = some v
  rw [h]
  rfl

/-! ## Entry serialization lemmas -/

theorem objGet_append_none (key : String) (fs1 fs2 : List (String × JsonValue))
    (h : objGet key fs2 = none) : objGet key (fs1 ++ fs2) = objGet key fs1 := by
  induction fs1 with
  | nil => simpa
  | cons f fs ih =>
    obtain ⟨k2, v2⟩ := f
    simp [objGet, ih]

theorem objGet_eq_none (key : String) :
    ∀ fs : List (String × JsonValue), (∀ f ∈ fs, f.1 ≠ key) → objGet key fs = none := by
  intro fs h
  induction fs with
  | nil => rfl
  | cons f fs ih =>
    obtain ⟨k2, v2⟩ := f
    have h2 : k2 ≠ key := h (k2, v2) (List.mem_cons_self _ _)
    have ht := ih fun g hg => h g (List.mem_cons_of_mem _ hg)
    simp [objGet, ht, h2]

theorem optField_key (name : String) (o : Option String) :
    ∀ f ∈ optField name o, f.1 = name := by
  cases o <;> simp [optField]

theorem objGet_id_entry (e : Entry) :
    objGet ("id") (entryFields e) = some (JsonValue.str e.id) := by
  have hADL : objGet ("id")
      (optField ("audio") e.audio ++ (optField ("drawing") e.drawing ++
        optField ("location") e.location)) = none := by
    apply objGet_eq_none
    intro f hf
    simp only [List.mem_append] at hf
    rcases hf with hf | hf | hf
    · rw [optField_key _ _ f hf]; decide
    · rw [optField_key _ _ f hf]; decide
    · rw [optField_key _ _ f hf]; decide
  simp [entryFields, objGet, hADL, List.append_assoc]

theorem jsonKeyOf_entry (e : Entry) :
    jsonKeyOf (entryToJson e) = some (IDBKey.str e.id) := by
  rw [entryToJson]
  simp only [jsonKeyOf, objGet_id_entry]

theorem putRecord_fresh (k : IDBKey) (v : JsonValue) :
    ∀ recs : List (IDBKey × JsonValue), k ∉ recs.map Prod.fst →
      putRecord k v recs = recs ++ [(k, v)] := by
  intro recs h
  induction recs with
  | nil => rfl
  | cons hd tl ih =>
    obtain ⟨k2, v2⟩ := hd
    simp only [List.map_cons, List.mem_cons] at h
    push_neg at h
    have h2 : ¬(k2 = k) := fun hh => h.1 hh.symm
    simp [putRecord, h2, ih h.2]


theorem runPuts_fresh :
    ∀ (items : List JsonValue) (recs : List (IDBKey × JsonValue)),
      (∀ v ∈ items, (jsonKeyOf v).isSome) →
      (items.map jsonKeyOf).Nodup →
      (∀ v ∈ items, ∀ r ∈ recs, jsonKeyOf v ≠ some r.1) →
      runPuts items recs = (recs ++ items.filterMap keyedOf, false) := by
  intro items
  induction items with
  | nil => intro recs _ _ _; simp [runPuts]
  | cons v vs ih =>
    intro recs hall hnd hdisj
    obtain ⟨k, hk⟩ := Option.isSome_iff_exists.mp (hall v (List.mem_cons_self _ _))
    have hkNotRecs : k ∉ recs.map Prod.fst := by
      intro hmem
      rw [List.mem_map] at hmem
      obtain ⟨r, hr, hrk⟩ := hmem
      exact hdisj v (List.mem_cons_self _ _) r hr (by rw [hk, hrk])
    simp only [List.map_cons, List.nodup_cons] at hnd
    simp only [runPuts, hk]
    rw [putRecord_fresh k v recs hkNotRecs,
      ih (recs ++ [(k, v)]) (fun w hw => hall w (List.mem_cons_of_mem _ hw)) hnd.2 ?disj]
    · simp [List.filterMap_cons, keyedOf, hk, List.append_assoc]
    case disj =>
      intro w hw r hr
      rw [List.mem_append] at hr
      rcases hr with hr | hr
      · exact hdisj w (List.mem_cons_of_mem _ hw) r hr
      · simp only [List.mem_singleton] at hr
        subst hr
        intro hcon
        refine hnd.1 ?_
        have hvw : jsonKeyOf v = jsonKeyOf w := by rw [hk, hcon]
        rw [hvw]
        exact List.mem_map_of_mem jsonKeyOf hw

theorem map_snd_filterMap_keyedOf :
    ∀ items : List JsonValue, (∀ v ∈ items, (jsonKeyOf v).isSome) →
      (items.filterMap keyedOf).map Prod.snd = items := by
  intro items h
  induction items with
  | nil => rfl
  | cons v vs ih =>
    obtain ⟨k, hk⟩ := Option.isSome_iff_exists.mp (h v (List.mem_cons_self _ _))
    simp [List.filterMap_cons, keyedOf, hk, ih fun w hw => h w (List.mem_cons_of_mem _ hw)]

/-! ## The snapshot round-trip claim -/

/-- C5: for a (non-empty) entry collection with unique ids,
`importData (exportData …)` applied to an empty store succeeds, and the
`getAllEntries` enumeration after the round trip is a permutation of — the
same records as — the enumeration before it. -/
theorem importData_exportData_roundtrip (es : List Entry) (st : EntriesState)
    (hst : st.records = es.map fun e => (IDBKey.str e.id, entryToJson e))
    (hids : (es.map Entry.id).Nodup) (_hne : es ≠ []) :
    (importData (exportData st) ⟨[]⟩).2 = none ∧
    (getAllEntries (importData (exportData st) ⟨[]⟩).1).Perm (getAllEntries st) := by
  have hvals : st.records.map Prod.snd = es.map entryToJson := by
    rw [hst, List.map_map]
    rfl
  have hperm : (getAllEntries st).Perm (es.map entryToJson) := by
    rw [getAllEntries, hvals]
    exact List.perm_insertionSort _ _
  have hallkeys : ∀ v ∈ getAllEntries st, (jsonKeyOf v).isSome := by
    intro v hv
    obtain ⟨e, -, rfl⟩ := List.mem_map.mp (hperm.mem_iff.mp hv)
    rw [jsonKeyOf_entry]
    rfl
  have hkeysnd : ((getAllEntries st).map jsonKeyOf).Nodup := by
    have hmapeq : (es.map entryToJson).map jsonKeyOf
        = (es.map Entry.id).map fun s => some (IDBKey.str s) := by
      rw [List.map_map, List.map_map]
      exact List.map_congr_left fun e _ => jsonKeyOf_entry e
    have h1 : ((es.map entryToJson).map jsonKeyOf).Nodup := by
      rw [hmapeq]
      refine hids.map ?_
      intro a b hab
      simpa using hab
    exact ((hperm.map jsonKeyOf).nodup_iff).mpr h1
  have hrun : runPuts (getAllEntries st) [] =
      ([] ++ (getAllEntries st).filterMap keyedOf, false) :=
    runPuts_fresh (getAllEntries st) [] hallkeys hkeysnd (by intro v hv r hr; cases hr)
  have hdec : decodeSeq (exportData st) = some (getAllEntries st) := by
    rw [exportData, decodeSeq, JSON.parse_stringify]
    rfl
  have himp : importData (exportData st) ⟨[]⟩ =
      (⟨(getAllEntries st).filterMap keyedOf⟩, none) := by
    simp [importData, importDataTx, hdec, hrun]
  refine ⟨by rw [himp], ?_⟩
  rw [himp]
  show (List.insertionSort dateDesc
      (((getAllEntries st).filterMap keyedOf).map Prod.snd)).Perm (getAllEntries st)
  rw [map_snd_filterMap_keyedOf (getAllEntries st) hallkeys]
  exact List.perm_insertionSort _ _

/-- C5 witness: a one-entry collection (exercising present and absent
optional fields) survives the export/import round trip. -/
theorem importData_exportData_roundtrip_witness :
    (importData (exportData ⟨[(IDBKey.str ("a"),
        entryToJson ⟨("a"), ("t"), ("c"), 5, 6, ("m"), [("g")], ("cat"), true, false,
          [("img")], some ("au"), none, some ("loc")⟩)]⟩) ⟨[]⟩).2 = none ∧
    (getAllEntries (importData (exportData ⟨[(IDBKey.str ("a"),
        entryToJson ⟨("a"), ("t"), ("c"), 5, 6, ("m"), [("g")], ("cat"), true, false,
          [("img")], some ("au"), none, some ("loc")⟩)]⟩) ⟨[]⟩).1).Perm
      (getAllEntries ⟨[(IDBKey.str ("a"),
        entryToJson ⟨("a"), ("t"), ("c"), 5, 6, ("m"), [("g")], ("cat"), true, false,
          [("img")], some ("au"), none, some ("loc")⟩)]⟩) :=
  importData_exportData_roundtrip
    [⟨("a"), ("t"), ("c"), 5, 6, ("m"), [("g")], ("cat"), true, false,
      [("img")], some ("au"), none, some ("loc")⟩]
    ⟨[(IDBKey.str ("a"),
      entryToJson ⟨("a"), ("t"), ("c"), 5, 6, ("m"), [("g")], ("cat"), true, false,
        [("img")], some ("au"), none, some ("loc")⟩)]⟩
    rfl (by decide) (List.cons_ne_nil _ _)
